import Mathlib

/-!
# Verification of the tfomics core algorithms

A shallow embedding of the tfomics repository's algorithmic core:

* `src/tfonics/dinucleotide_shuffle.py` — the Altschul–Erickson
  dinucleotide-preserving shuffle;
* `src/tfomics/statistics.py` — binomial effect-size estimation and pooling;
* `src/tfomics/mendelian_randomisation.py` — the naive MR analysis,
  causal-effect propagation and Benjamini–Hochberg q-values.

Python sequences become `List Char`; dataframes become lists of records;
the mutable `random.Random` source becomes an explicit stream of draws that
is threaded through every operation; Python exceptions become `Except`
errors; the unbounded `while True` retry loop in `pick_edges` carries
explicit fuel.  Exact rational arithmetic (`ℚ`) stands in for Python
floats; the float operation `x ** 0.5` and the external `scipy` routines
(`norm.sf`, `curve_fit`) are taken as explicit functional parameters, and
square roots are characterised exactly through the predicate `isSqrtOf`.
-/

deriving instance DecidableEq for Except

namespace Tfomics

/-! ## Random source (Python `random.Random`)

`random.Random` is a seedable stateful source from the Python standard
library (external to the repository).  It is embedded as the stream of
natural-number draws it will produce: identically seeded sources denote
identical streams. -/

/-- A random source, embedded as its stream of natural-number draws. -/
abbrev Rng := List Nat

/-- One raw draw from the source (`0` once the stream is exhausted). -/
def Rng.next : Rng → Nat × Rng
  | [] => (0, [])
  | n :: rest => (n, rest)

/-- Modelled from Python `random.Random.choice`: select the element at a drawn
index.  Python raises `IndexError` on an empty sequence, embedded as `none`. -/
def Rng.choice (r : Rng) (l : List α) : Option (α × Rng) :=
  match l with
  | [] => none
  | a :: tl =>
    some ((a :: tl).get ⟨r.next.1 % (a :: tl).length, Nat.mod_lt _ (Nat.succ_pos _)⟩,
      r.next.2)

/-- Recursion core of `Rng.shuffleList`; the fuel argument equals the list
length so that the recursion is structural and evaluates in the kernel. -/
def shuffleGo [DecidableEq α] : Nat → Rng → List α → List α × Rng
  | 0, r, _ => ([], r)
  | _ + 1, r, [] => ([], r)
  | k + 1, r, a :: tl =>
    let chosen := (a :: tl).get
      ⟨r.next.1 % (a :: tl).length, Nat.mod_lt _ (Nat.succ_pos _)⟩
    let res := shuffleGo k r.next.2 ((a :: tl).erase chosen)
    (chosen :: res.1, res.2)

/-- Modelled from Python `random.Random.shuffle`: reorder a list in place using
draws from the source, embedded as repeatedly drawing an index and extracting
one occurrence of the element found there. -/
def Rng.shuffleList [DecidableEq α] (r : Rng) (l : List α) : List α × Rng :=
  shuffleGo l.length r l

/-! ## Dinucleotide shuffle (`src/tfonics/dinucleotide_shuffle.py`) -/

/-- The four valid nucleotide symbols `{A, C, G, T}`. -/
def nucleotides : List Char := ['A', 'C', 'G', 'T']

/-- Python `str.upper`, character-wise. -/
def upper (sect : List Char) : List Char := sect.map Char.toUpper

/-- The adjacent-character pairs `(section[i], section[i+1])` of a sequence. -/
def dinucleotides (sect : List Char) : List (Char × Char) := sect.zip sect.tail

/-- Embeds `get_dinucleotide_sequence`: the dictionary-of-lists transition map
sending each nucleotide `X` to the ordered list of characters that follow an
occurrence of `X` in the section (a `defaultdict(list)`, so absent keys map to
`[]`).  The Python loop over `i in range(len(section)-1)` appends
`section[i+1]` to the list at key `section[i]`; reading the loop off the head
of the list gives the recursion below. -/
def get_dinucleotide_sequence : List Char → Char → List Char
  | c1 :: c2 :: rest, c =>
    (if c = c1 then [c2] else []) ++ get_dinucleotide_sequence (c2 :: rest) c
  | _, _ => []

/-- One pass of the back-propagation loop `for (start, end) in edge_list` in
`connected_to_last`, updating the connectivity table sequentially exactly as
the Python loop mutates its dictionary. -/
def relaxRound (edge_list : List (Char × Char)) (conn : Char → Bool) : Char → Bool :=
  edge_list.foldl
    (fun cn e => if cn e.2 then (fun c => if c = e.1 then true else cn c) else cn) conn

/-- Embeds `connected_to_last`: whether, through `edge_list`, every nucleotide
reaches the last character within `len(nucleotide_list) - 1` relaxation
rounds.  The Python dictionary (all keys `False`, then `last_character` set
`True`) is embedded as the function `fun c => c = last_character`. -/
def connected_to_last (edge_list : List (Char × Char)) (nucleotide_list : List Char)
    (last_character : Char) : Bool :=
  let init : Char → Bool := fun c => c = last_character
  let final := (relaxRound edge_list)^[nucleotide_list.length - 1] init
  nucleotide_list.all final

/-- Failure modes of the shuffle: the alphabet `AssertionError` (carrying the
offending symbols), Python `IndexError`s, and exhaustion of the fuel that
bounds the `while True` retry loop. -/
inductive ShuffleError where
  | invalidAlphabet (offending : List Char)
  | indexError
  | fuelExhausted
deriving DecidableEq

/-- Ordered insertion into a sorted character list (used to embed `sorted`). -/
def insertChar (a : Char) : List Char → List Char
  | [] => [a]
  | b :: bs => if a ≤ b then a :: b :: bs else b :: insertChar a bs

/-- Python `sorted` on a list of characters (insertion sort). -/
def sortChars (l : List Char) : List Char := l.foldr insertChar []

/-- Embeds `get_nucleotide_list`: form the set of characters of the section
(first occurrences, as `dedup`), fail on any character outside `{A,C,G,T}`
listing the offending symbols, and otherwise return the set sorted. -/
def get_nucleotide_list (sect : List Char) : Except ShuffleError (List Char) :=
  let nucleotide_set := sect.dedup
  let invalid_nucleotides := nucleotide_set.filter (fun c => decide (c ∉ nucleotides))
  if invalid_nucleotides.isEmpty then .ok (sortChars nucleotide_set)
  else .error (.invalidAlphabet invalid_nucleotides)

/-- Embeds the edge-drawing loop of `pick_edges`: for every nucleotide other
than the last character, draw one successor from its transition list
(`rng.choice`), collecting the chosen edges in order. -/
def draw_edge_list (nucleotide_list : List Char) (last_character : Char)
    (d : Char → List Char) (r : Rng) : Option (List (Char × Char) × Rng) :=
  match nucleotide_list with
  | [] => some ([], r)
  | start :: rest =>
    if start = last_character then draw_edge_list rest last_character d r
    else
      match r.choice (d start) with
      | none => none
      | some (chosen, r') =>
        match draw_edge_list rest last_character d r' with
        | none => none
        | some (edges, r'') => some ((start, chosen) :: edges, r'')

/-- The `while True` retry loop of `pick_edges`, with explicit fuel. -/
def pick_edges_loop (fuel : Nat) (nucleotide_list : List Char) (last_character : Char)
    (d : Char → List Char) (r : Rng) : Except ShuffleError (List (Char × Char) × Rng) :=
  match fuel with
  | 0 => .error .fuelExhausted
  | fuel' + 1 =>
    match draw_edge_list nucleotide_list last_character d r with
    | none => .error .indexError
    | some (edge_list, r') =>
      if connected_to_last edge_list nucleotide_list last_character then .ok (edge_list, r')
      else pick_edges_loop fuel' nucleotide_list last_character d r'

/-- Embeds `pick_edges`: `section[-1]` raises `IndexError` on an empty section;
otherwise retry random edge sets until one is connected to the last character. -/
def pick_edges (fuel : Nat) (sect : List Char) (nucleotide_list : List Char)
    (d : Char → List Char) (r : Rng) : Except ShuffleError (List (Char × Char) × Rng) :=
  match sect.getLast? with
  | none => .error .indexError
  | some last_character => pick_edges_loop fuel nucleotide_list last_character d r

/-- Pointwise update of the dictionary-of-lists transition map. -/
def updateMap (d : Char → List Char) (k : Char) (v : List Char) : Char → List Char :=
  fun c => if c = k then v else d c

/-- `for (start, end) in edge_list: dinucleotide_sequence[start].remove(end)` —
remove the first occurrence of each chosen edge from its vertex list. -/
def removeEdges : List (Char × Char) → (Char → List Char) → Char → List Char
  | [], d => d
  | e :: es, d => removeEdges es (updateMap d e.1 ((d e.1).erase e.2))

/-- `for nucleotide in nucleotide_list: rng.shuffle(dinucleotide_sequence[nucleotide])` —
shuffle every vertex list in place, threading the random source. -/
def shuffleEdges : List Char → (Char → List Char) → Rng → (Char → List Char) × Rng
  | [], d, r => (d, r)
  | k :: ks, d, r =>
    shuffleEdges ks (updateMap d k (r.shuffleList (d k)).1) (r.shuffleList (d k)).2

/-- `for (start, end) in edge_list: dinucleotide_sequence[start].append(end)` —
re-append each removed edge at the end of its vertex list. -/
def appendEdges : List (Char × Char) → (Char → List Char) → Char → List Char
  | [], d => d
  | e :: es, d => appendEdges es (updateMap d e.1 (d e.1 ++ [e.2]))

/-- Embeds the Eulerian-path reconstruction loop of `dinucleotide_shuffle`:
`steps` times, take and delete the first remaining successor of the previous
character, appending it to the path (`IndexError` if the list is empty). -/
def walkPath : (Char → List Char) → Char → Nat → Except ShuffleError (List Char)
  | _, _, 0 => .ok []
  | d, previous_character, steps + 1 =>
    match d previous_character with
    | [] => .error .indexError
    | current :: rest =>
      (walkPath (updateMap d previous_character rest) current steps).map
        (fun p => current :: p)

/-- Embeds `dinucleotide_shuffle`: uppercase, validate, build the transition
map, pick a connected random edge set (with `fuel` bounding the retry loop),
pin those edges last while shuffling every vertex list, and reconstruct the
walk from the first character. -/
def dinucleotide_shuffle (sect : List Char) (fuel : Nat) (rng : Rng) :
    Except ShuffleError (List Char) := do
  let sectU := upper sect
  let nucleotide_list ← get_nucleotide_list sectU
  let d0 := get_dinucleotide_sequence sectU
  let elr ← pick_edges fuel sectU nucleotide_list d0 rng
  let d1 := removeEdges elr.1 d0
  let d2 := (shuffleEdges nucleotide_list d1 elr.2).1
  let d3 := appendEdges elr.1 d2
  match sectU with
  | [] => .error .indexError
  | c0 :: _ => (walkPath d3 c0 (sectU.length - 1)).map (fun p => c0 :: p)

/-- The multiset of directed edges `(k, y)`, `y ∈ d k`, of a transition map
over a list of keys (specification device for the preservation proof). -/
def edgesOf (d : Char → List Char) (keys : List Char) : Multiset (Char × Char) :=
  ↑(keys.flatMap (fun k => (d k).map (fun y => (k, y))))

/-! ## Exact-arithmetic interface for float operations

Python computes with IEEE floats; the embedding computes with exact
rationals.  The float operation `x ** 0.5` is not a rational function, so it
enters the embedding as an explicit functional parameter `sq : ℚ → ℚ`, and
exactness of a square root is expressed by the predicate `isSqrtOf`. -/

/-- `s` is the (unique) non-negative square root of `x` — the exact reading
of the float operation `x ** 0.5`. -/
def isSqrtOf (x s : ℚ) : Prop := 0 ≤ s ∧ s * s = x

instance (x s : ℚ) : Decidable (isSqrtOf x s) := by unfold isSqrtOf; infer_instance

/-! ## Statistics (`src/tfomics/statistics.py`) -/

/-- Embeds `_binomial_probability_and_variance` (the leading underscore is
dropped), parameterised by the float square-root routine `sq` standing for
`** 0.5`: floor both counts at `1`, estimate `p = positives / total`, and
return `p` with the square root of `p * (1 - p) / total`. -/
def binomial_probability_and_variance (sq : ℚ → ℚ) (positives0 negatives0 : ℚ) : ℚ × ℚ :=
  let positives := max positives0 1
  let negatives := max negatives0 1
  let total := positives + negatives
  let p_estimate := positives / total
  let var_estimate := sq (p_estimate * (1 - p_estimate) / total)
  (p_estimate, var_estimate)

/-- Embeds `_pool_summary_statistics` (the leading underscore is dropped),
parameterised by the external `scipy.optimize.curve_fit` weighted
constant-model fit: `curveFit points sterr` stands for the fitted parameter
and the square root of its covariance.  A single point is returned unchanged
with its standard error; `sterr.iat[0]` on an empty error list is an
`IndexError`, embedded as `none`. -/
def pool_summary_statistics (curveFit : List ℚ → List ℚ → ℚ × ℚ)
    (points sterr : List ℚ) : Option (ℚ × ℚ) :=
  if points.length = 1 then
    match points, sterr with
    | p :: _, s :: _ => some (p, s)
    | _, _ => none
  else some (curveFit points sterr)

/-! ## Mendelian randomisation (`src/tfomics/mendelian_randomisation.py`) -/

/-- Python `ZeroDivisionError` raised by float division. -/
inductive MRError where
  | divisionByZero
deriving DecidableEq

/-- Embeds `causal_effect`, parameterised by the float square-root routine
`sq` standing for `** 0.5`: the causal effect is
`gwas_effect / exposure_effect` (Python raises `ZeroDivisionError` when the
exposure effect is zero), and the standard error is the square root of the
first-order error propagation
`gwas_error² / exposure_effect² + gwas_effect² · exposure_error² / exposure_effect⁴`. -/
def causal_effect (sq : ℚ → ℚ)
    (exposure_effect exposure_error gwas_effect gwas_error : ℚ) :
    Except MRError (ℚ × ℚ) :=
  if exposure_effect = 0 then .error .divisionByZero
  else
    let ce := gwas_effect / exposure_effect
    let errors_squared := gwas_error ^ 2 / exposure_effect ^ 2
    let errors_squared :=
      errors_squared + gwas_effect ^ 2 * exposure_error ^ 2 / exposure_effect ^ 4
    .ok (ce, sq errors_squared)

/-- Modelled from the spec: the Benjamini–Hochberg adjustment computed by
`multipletests(ps, method="fdr_bh")` from the external `statsmodels` package
(sort ascending, multiply the `i`-th smallest of `n` values by `n / (i + 1)`,
take running minima from the right, cap at `1`, restore the original order).
Expressed per element: tied p-values receive the factor of the last sorted
position of their tie block, so the adjusted value of `p` is the capped
minimum of `v * n / #{j | ps[j] ≤ v}` over the observed levels `v ≥ p`. -/
def bhValue (ps : List ℚ) (p : ℚ) : ℚ :=
  let n : ℚ := ps.length
  let factor : ℚ → ℚ := fun v => v * n / (ps.countP (fun q => decide (q ≤ v)) : ℕ)
  min 1 (((ps.filter (fun v => decide (p ≤ v))).map factor).foldr min (factor p))

/-- The Benjamini–Hochberg adjusted list (`multipletests(ps, "fdr_bh")[1]`). -/
def bhAdjust (ps : List ℚ) : List ℚ := ps.map (bhValue ps)

/-- Embeds `get_q_values`: record the positions holding present (finite
float) p-values, adjust exactly those with Benjamini–Hochberg, and scatter
the q-values back into an all-missing list of the original length.  A
missing entry (`None` or `NaN`) is embedded as `none`. -/
def get_q_values (list_of_p : List (Option ℚ)) : List (Option ℚ) :=
  let pos_p_values := (List.range list_of_p.length).filter
    (fun i => (list_of_p.getD i none).isSome)
  let p_values_no_none := list_of_p.filterMap id
  let q_values := bhAdjust p_values_no_none
  let out := List.replicate list_of_p.length (none : Option ℚ)
  (pos_p_values.zip q_values).foldl (fun o pq => o.set pq.1 (some pq.2)) out

/-! ## The naive MR analysis (`naive_mr_analysis`) -/

/-- A dataframe cell: a string, a float, or a missing value (`NaN`). -/
inductive Cell where
  | str (s : String)
  | num (q : ℚ)
  | nan
deriving DecidableEq

/-- An exposure (BV) row with the semantic MR columns
(`rsid, es, es_sterr, ref, alt`); the column-name dictionaries of the Python
code are resolved to fixed semantic field names. -/
structure BVRow where
  rsid : String
  es : ℚ
  es_sterr : ℚ
  ref : String
  alt : String
deriving DecidableEq

/-- A GWAS row with the semantic columns
(`rsid, allele, beta, NSE, MAF, HWE, iscore, trait`); `none` embeds a missing
value (pandas `NaN`). -/
structure GWASRow where
  rsid : Option String
  allele : Option String
  beta : Option ℚ
  NSE : Option ℚ
  MAF : Option ℚ
  HWE : Option ℚ
  iscore : Option ℚ
  trait : Option String
deriving DecidableEq

def bvColNames : List String := ["rsid", "es", "es_sterr", "ref", "alt"]

def gwasColNames : List String :=
  ["rsid", "allele", "beta", "NSE", "MAF", "HWE", "iscore", "trait"]

/-- `out_cols` of `naive_mr_analysis` before the q-value column is attached:
`list(df_BVs.columns) + list(df_GWAS.columns) + ["MR total causal effect",
"MR se", "z score", "p value"]`. -/
def naive_mr_out_cols : List String :=
  bvColNames ++ gwasColNames ++
    ["MR total causal effect", "MR se", "z score", "p value"]

/-- The columns of the returned dataframe (`out["q values"] = qvalues`). -/
def naive_mr_final_cols : List String := naive_mr_out_cols ++ ["q values"]

/-- `list(BV)`: the cells of a BV row, in column order. -/
def bvCells (bv : BVRow) : List Cell :=
  [.str bv.rsid, .num bv.es, .num bv.es_sterr, .str bv.ref, .str bv.alt]

def optStrCell : Option String → Cell
  | none => .nan
  | some s => .str s

def optNumCell : Option ℚ → Cell
  | none => .nan
  | some q => .num q

/-- `list(trait_GWAS)`: the cells of a GWAS row, in column order. -/
def gwasCells (g : GWASRow) : List Cell :=
  [optStrCell g.rsid, optStrCell g.allele, optNumCell g.beta, optNumCell g.NSE,
    optNumCell g.MAF, optNumCell g.HWE, optNumCell g.iscore, optStrCell g.trait]

/-- `dropna(axis=0, how="any")`: keep only rows with no missing field. -/
def rowComplete (g : GWASRow) : Bool :=
  g.rsid.isSome && g.allele.isSome && g.beta.isSome && g.NSE.isSome &&
    g.MAF.isSome && g.HWE.isSome && g.iscore.isSome && g.trait.isSome

/-- A pandas threshold comparison `column >= bound` (`NaN` compares false). -/
def optGE (x : Option ℚ) (m : ℚ) : Bool :=
  match x with
  | none => false
  | some v => decide (m ≤ v)

/-- One inner-loop step of `naive_mr_analysis`: score one (BV, GWAS-row)
candidate.  A row whose trait is not in the study list produces no output
row; a GWAS allele matching neither BV allele yields four missing cells.
The allele sign (`allele_swap_sign`) is computed but — exactly as in the
source — never applied to the exposure effect.  After `dropna` the `beta`
and `NSE` fields are present, so the `getD 0` defaults are never used.
Python would raise `ZeroDivisionError` for `z = causal_es / causal_se` with
a zero standard error, embedded as the explicit zero test. -/
def scoreRow (sq sf : ℚ → ℚ) (codes : List String) (bv : BVRow) (g : GWASRow) :
    Except MRError (List (List Cell)) :=
  if (match g.trait with | some t => decide (t ∈ codes) | none => false) then
    let allele_swap_sign : Int :=
      if g.allele = some bv.alt then 1
      else if g.allele = some bv.ref then -1
      else 0
    if allele_swap_sign ≠ 0 then
      match causal_effect sq bv.es bv.es_sterr (g.beta.getD 0) (g.NSE.getD 0) with
      | .error e => .error e
      | .ok (causal_es, causal_se) =>
        if causal_se = 0 then .error .divisionByZero
        else
          let z := causal_es / causal_se
          let p := sf |z| * 2
          .ok [bvCells bv ++ gwasCells g ++
            [.num causal_es, .num causal_se, .num z, .num p]]
    else
      .ok [bvCells bv ++ gwasCells g ++ [.nan, .nan, .nan, .nan]]
  else
    .ok []

/-- One outer-loop step of `naive_mr_analysis`: process one BV row.  The
GWAS rows with matching rsid are selected, filtered (`dropna`, thresholds),
optionally rsid-permuted through the ambient NumPy state `amb`
(`np.random.permutation` writes the shuffled values back positionally), and
scored row by row; a BV without GWAS match yields one all-missing row. -/
def processBV (sq sf : ℚ → ℚ) (dfGWAS : List GWASRow) (codes : List String)
    (permute : Bool) (amb : List (Option String) → List (Option String))
    (minMAF minHWE miniscore : ℚ) (bv : BVRow) :
    Except MRError (List (List Cell)) :=
  let rsid_GWAS := dfGWAS.filter (fun g => decide (g.rsid = some bv.rsid))
  if rsid_GWAS.isEmpty then
    .ok [bvCells bv ++ List.replicate gwasColNames.length Cell.nan ++
      List.replicate 4 Cell.nan]
  else
    let rsid_GWAS := rsid_GWAS.filter rowComplete
    let rsid_GWAS := rsid_GWAS.filter (fun g =>
      optGE g.MAF minMAF && optGE g.HWE minHWE && optGE g.iscore miniscore)
    let rsid_GWAS :=
      if permute then
        List.zipWith (fun g r => { g with rsid := r }) rsid_GWAS
          (amb (rsid_GWAS.map (fun g => g.rsid)))
      else rsid_GWAS
    rsid_GWAS.foldlM (fun acc g =>
      (scoreRow sq sf codes bv g).map (fun rows => acc ++ rows)) []

/-- Embeds `naive_mr_analysis`.  The ambient NumPy global random state used
by `np.random.permutation` (consulted only when `permute` is true) enters as
the explicit reordering function `amb`; `sq` and `sf` stand for the float
`** 0.5` and the external `scipy.stats.norm.sf`.  Returns the output
dataframe as its column names and rows; the final `p value` cell of each row
feeds `get_q_values` and the q-value column is appended. -/
def naive_mr_analysis (sq sf : ℚ → ℚ) (dfBVs : List BVRow)
    (dfGWAS : List GWASRow) (codes : List String) (permute : Bool)
    (amb : List (Option String) → List (Option String))
    (minMAF minHWE miniscore : ℚ) :
    Except MRError (List String × List (List Cell)) := do
  let out ← dfBVs.foldlM (fun acc bv =>
    (processBV sq sf dfGWAS codes permute amb minMAF minHWE miniscore bv).map
      (fun rows => acc ++ rows)) []
  let pvalues := out.map (fun r =>
    match r.getLast? with
    | some (.num q) => some q
    | _ => none)
  let qvalues := get_q_values pvalues
  let out := (out.zip qvalues).map (fun rq => rq.1 ++ [optNumCell rq.2])
  pure (naive_mr_final_cols, out)

/-- Specification device for `get_q_values`: replace the present entries of a
list, in order, by the values of a second list (missing entries stay missing,
and present entries beyond the second list's length become missing, exactly
as the positional scatter behaves). -/
def fillSomes : List (Option ℚ) → List ℚ → List (Option ℚ)
  | [], _ => []
  | none :: t, qs => none :: fillSomes t qs
  | some _ :: t, [] => none :: fillSomes t []
  | some _ :: t, q :: qs => some q :: fillSomes t qs

/-! ## Helper lemmas -/

/-- The non-negative square root is unique in `ℚ`. -/
theorem isSqrtOf_unique {x s t : ℚ} (hs : isSqrtOf x s) (ht0 : 0 ≤ t)
    (ht : t * t = x) : s = t := by
  rcases hs with ⟨hs0, hsx⟩
  have hst : s * s = t * t := by rw [hsx, ht]
  rcases mul_self_eq_mul_self_iff.mp hst with h | h
  · exact h
  · have : t = 0 := by linarith
    simp [this] at h ⊢
    linarith [h, hs0]

theorem exceptBind_ok (a : α) (f : α → Except ε β) : (Except.ok a >>= f) = f a := rfl

theorem exceptBind_error (e : ε) (f : α → Except ε β) :
    ((Except.error e : Except ε α) >>= f) = .error e := rfl

theorem exceptMap_ok (f : α → β) (a : α) :
    Except.map f (.ok a : Except ε α) = .ok (f a) := rfl

theorem exceptMap_error (f : α → β) (e : ε) :
    Except.map f (.error e : Except ε α) = .error e := rfl

theorem exceptMap_eq_ok {f : α → β} {x : Except ε α} {b : β}
    (h : Except.map f x = .ok b) : ∃ a, x = .ok a ∧ f a = b := by
  cases x with
  | error e => rw [exceptMap_error] at h; exact Except.noConfusion h
  | ok a => exact ⟨a, rfl, Except.ok.inj (by rw [← exceptMap_ok f a, h])⟩

theorem insertChar_perm (a : Char) (l : List Char) : (insertChar a l).Perm (a :: l) := by
  induction l with
  | nil => simp [insertChar]
  | cons b bs ih =>
    by_cases hab : a ≤ b
    · simp [insertChar, hab]
    · simp only [insertChar, if_neg hab]
      exact (ih.cons b).trans (List.Perm.swap a b bs)

theorem sortChars_perm (l : List Char) : (sortChars l).Perm l := by
  induction l with
  | nil => exact List.Perm.refl []
  | cons a tl ih => exact (insertChar_perm a (sortChars tl)).trans (ih.cons a)

theorem shuffleGo_perm [DecidableEq α] :
    ∀ (k : Nat) (r : Rng) (l : List α), l.length ≤ k → ((shuffleGo k r l).1).Perm l := by
  intro k
  induction k with
  | zero =>
    intro r l hl
    have : l = [] := List.eq_nil_of_length_eq_zero (Nat.le_zero.mp hl)
    subst this
    exact List.Perm.refl _
  | succ k ih =>
    intro r l hl
    cases l with
    | nil => exact List.Perm.refl _
    | cons a tl =>
      simp only [shuffleGo]
      have hmem : (a :: tl).get
          ⟨r.next.1 % (a :: tl).length, Nat.mod_lt _ (Nat.succ_pos _)⟩ ∈ a :: tl :=
        List.get_mem _ _ _
      have hlen : ((a :: tl).erase ((a :: tl).get
          ⟨r.next.1 % (a :: tl).length, Nat.mod_lt _ (Nat.succ_pos _)⟩)).length ≤ k := by
        rw [List.length_erase_of_mem hmem]
        simpa using Nat.le_of_succ_le_succ hl
      exact ((ih r.next.2 _ hlen).cons _).trans (List.perm_cons_erase hmem).symm

theorem shuffleList_perm [DecidableEq α] (r : Rng) (l : List α) :
    ((r.shuffleList l).1).Perm l :=
  shuffleGo_perm l.length r l (Nat.le_refl _)

theorem choice_mem {r : Rng} {l : List α} {a : α} {r' : Rng}
    (h : r.choice l = some (a, r')) : a ∈ l := by
  cases l with
  | nil => simp [Rng.choice] at h
  | cons x tl =>
    simp only [Rng.choice, Option.some.injEq, Prod.mk.injEq] at h
    exact h.1 ▸ List.get_mem _ _ _

theorem dinucleotides_cons₂ (a b : Char) (l : List Char) :
    dinucleotides (a :: b :: l) = (a, b) :: dinucleotides (b :: l) := rfl

theorem map_snd_dinucleotides : ∀ (c : Char) (l : List Char),
    (dinucleotides (c :: l)).map Prod.snd = l := by
  intro c l
  induction l generalizing c with
  | nil => rfl
  | cons b t ih => simp only [dinucleotides_cons₂, List.map_cons, ih b]

theorem map_fst_dinucleotides : ∀ (l : List Char),
    (dinucleotides l).map Prod.fst = l.dropLast := by
  intro l
  match l with
  | [] => rfl
  | [a] => rfl
  | a :: b :: t =>
    have ih := map_fst_dinucleotides (b :: t)
    simp only [dinucleotides_cons₂, List.map_cons, ih]
    rfl

theorem length_dinucleotides_cons (c : Char) (l : List Char) :
    (dinucleotides (c :: l)).length = l.length := by
  have := congrArg List.length (map_snd_dinucleotides c l)
  simpa using this

/-- `get_dinucleotide_sequence` lists, in order, the second components of the
dinucleotide pairs whose first component is the queried character. -/
theorem gds_eq_filterMap : ∀ (l : List Char) (c : Char),
    get_dinucleotide_sequence l c =
      (dinucleotides l).filterMap (fun p => if p.1 = c then some p.2 else none) := by
  intro l
  match l with
  | [] => intro c; rfl
  | [a] => intro c; rfl
  | a :: b :: t =>
    intro c
    have ih := gds_eq_filterMap (b :: t) c
    simp only [get_dinucleotide_sequence, dinucleotides_cons₂, List.filterMap_cons, ih]
    by_cases hac : a = c
    · subst hac
      simp
    · simp [hac, Ne.symm hac]

theorem count_filterMap_pairs : ∀ (ps : List (Char × Char)) (a b : Char),
    Multiset.count b ↑(ps.filterMap (fun p => if p.1 = a then some p.2 else none)) =
      Multiset.count (a, b) (↑ps : Multiset (Char × Char)) := by
  intro ps a b
  induction ps with
  | nil => rfl
  | cons p t ih =>
    rcases p with ⟨x, y⟩
    by_cases hxa : x = a
    · subst hxa
      rw [show List.filterMap (fun p => if p.1 = x then some p.2 else none) ((x, y) :: t) =
          y :: List.filterMap (fun p => if p.1 = x then some p.2 else none) t from by
        rw [List.filterMap_cons]; simp]
      rw [← Multiset.cons_coe, ← Multiset.cons_coe, Multiset.count_cons,
        Multiset.count_cons, ih]
      congr 1
      by_cases hyb : b = y
      · subst hyb
        simp
      · simp [hyb, Prod.mk.injEq]
    · have hne : ¬(((a, b) : Char × Char) = (x, y)) :=
        fun hh => hxa (congrArg Prod.fst hh).symm
      rw [show List.filterMap (fun p => if p.1 = a then some p.2 else none) ((x, y) :: t) =
          List.filterMap (fun p => if p.1 = a then some p.2 else none) t from by
        rw [List.filterMap_cons]; simp [hxa]]
      rw [← Multiset.cons_coe, Multiset.count_cons, if_neg hne, add_zero, ih]

theorem edgesOf_nil (d : Char → List Char) : edgesOf d [] = 0 := rfl

theorem edgesOf_cons (d : Char → List Char) (k : Char) (ks : List Char) :
    edgesOf d (k :: ks) = ↑((d k).map (fun y => (k, y))) + edgesOf d ks := by
  simp [edgesOf, List.flatMap_cons]

theorem edgesOf_congr : ∀ {keys : List Char} {d d' : Char → List Char},
    (∀ k ∈ keys, (d k).Perm (d' k)) → edgesOf d keys = edgesOf d' keys := by
  intro keys
  induction keys with
  | nil => intro d d' _; rfl
  | cons k ks ih =>
    intro d d' h
    rw [edgesOf_cons, edgesOf_cons, ih (fun k' hk' => h k' (List.mem_cons_of_mem _ hk'))]
    congr 1
    exact Multiset.coe_eq_coe.mpr ((h k (List.mem_cons_self k ks)).map _)

theorem edgesOf_extract : ∀ {keys : List Char} {d : Char → List Char} {prev c : Char}
    {rest : List Char}, keys.Nodup → prev ∈ keys → d prev = c :: rest →
    edgesOf d keys = (prev, c) ::ₘ edgesOf (updateMap d prev rest) keys := by
  intro keys
  induction keys with
  | nil => intro d prev c rest _ hprev _; cases hprev
  | cons k ks ih =>
    intro d prev c rest hnd hprev hd
    rcases List.mem_cons.mp hprev with hk | hk
    · subst hk
      rw [edgesOf_cons, edgesOf_cons, hd]
      have h1 : updateMap d prev rest prev = rest := by simp [updateMap]
      have h2 : edgesOf (updateMap d prev rest) ks = edgesOf d ks :=
        edgesOf_congr (fun k' hk' => by
          have hne : k' ≠ prev := fun he => (List.nodup_cons.mp hnd).1 (he ▸ hk')
          simp [updateMap, hne])
      rw [h1, h2, List.map_cons, ← Multiset.cons_coe, Multiset.cons_add]
    · have hkp : k ≠ prev := fun he => (List.nodup_cons.mp hnd).1 (he ▸ hk)
      rw [edgesOf_cons, edgesOf_cons, ih (List.nodup_cons.mp hnd).2 hk hd]
      have h3 : updateMap d prev rest k = d k := by simp [updateMap, hkp]
      rw [h3, Multiset.add_cons]

theorem removeEdges_not_mem : ∀ (el : List (Char × Char)) (d : Char → List Char)
    (k : Char), k ∉ el.map Prod.fst → removeEdges el d k = d k := by
  intro el
  induction el with
  | nil => intro d k _; rfl
  | cons e es ih =>
    intro d k h
    simp only [List.map_cons, List.mem_cons, not_or] at h
    rw [removeEdges, ih _ _ h.2]
    simp [updateMap, h.1]

theorem removeEdges_mem : ∀ (el : List (Char × Char)) (d : Char → List Char)
    (e : Char × Char), e ∈ el → (el.map Prod.fst).Nodup →
    removeEdges el d e.1 = (d e.1).erase e.2 := by
  intro el
  induction el with
  | nil => intro d e he _; cases he
  | cons e' es ih =>
    intro d e he hnd
    rcases List.mem_cons.mp he with he1 | he2
    · subst he1
      rw [removeEdges]
      have hnotin : e.1 ∉ es.map Prod.fst := (List.nodup_cons.mp hnd).1
      rw [removeEdges_not_mem es _ e.1 hnotin]
      simp [updateMap]
    · have hne : e'.1 ≠ e.1 := by
        intro hcontra
        exact (List.nodup_cons.mp hnd).1
          (hcontra ▸ List.mem_map.mpr ⟨e, he2, rfl⟩)
      rw [removeEdges, ih _ e he2 (List.nodup_cons.mp hnd).2]
      simp [updateMap, Ne.symm hne]

theorem appendEdges_not_mem : ∀ (el : List (Char × Char)) (d : Char → List Char)
    (k : Char), k ∉ el.map Prod.fst → appendEdges el d k = d k := by
  intro el
  induction el with
  | nil => intro d k _; rfl
  | cons e es ih =>
    intro d k h
    simp only [List.map_cons, List.mem_cons, not_or] at h
    rw [appendEdges, ih _ _ h.2]
    simp [updateMap, h.1]

theorem appendEdges_mem : ∀ (el : List (Char × Char)) (d : Char → List Char)
    (e : Char × Char), e ∈ el → (el.map Prod.fst).Nodup →
    appendEdges el d e.1 = d e.1 ++ [e.2] := by
  intro el
  induction el with
  | nil => intro d e he _; cases he
  | cons e' es ih =>
    intro d e he hnd
    rcases List.mem_cons.mp he with he1 | he2
    · subst he1
      rw [appendEdges]
      have hnotin : e.1 ∉ es.map Prod.fst := (List.nodup_cons.mp hnd).1
      rw [appendEdges_not_mem es _ e.1 hnotin]
      simp [updateMap]
    · have hne : e'.1 ≠ e.1 := by
        intro hcontra
        exact (List.nodup_cons.mp hnd).1
          (hcontra ▸ List.mem_map.mpr ⟨e, he2, rfl⟩)
      rw [appendEdges, ih _ e he2 (List.nodup_cons.mp hnd).2]
      simp [updateMap, Ne.symm hne]

theorem shuffleEdges_perm : ∀ (keys : List Char) (d : Char → List Char) (r : Rng)
    (k : Char), ((shuffleEdges keys d r).1 k).Perm (d k) := by
  intro keys
  induction keys with
  | nil => intro d r k; exact List.Perm.refl _
  | cons k' ks ih =>
    intro d r k
    rw [shuffleEdges]
    refine (ih _ _ k).trans ?_
    by_cases hk : k = k'
    · subst hk
      simpa [updateMap] using shuffleList_perm r (d k)
    · simp [updateMap, hk]

/-- The remove / shuffle / re-append pipeline leaves every vertex list a
permutation of the original, provided the chosen edges have pairwise distinct
start vertices and each chosen successor occurs in its start's list. -/
theorem pipeline_perm (el : List (Char × Char)) (keys : List Char)
    (d : Char → List Char) (r : Rng)
    (hnd : (el.map Prod.fst).Nodup) (hmem : ∀ e ∈ el, e.2 ∈ d e.1) (k : Char) :
    (appendEdges el ((shuffleEdges keys (removeEdges el d) r).1) k).Perm (d k) := by
  by_cases hk : k ∈ el.map Prod.fst
  · obtain ⟨e, he, hek⟩ := List.mem_map.mp hk
    subst hek
    rw [appendEdges_mem el _ e he hnd]
    refine (((shuffleEdges_perm keys _ r e.1).append_right [e.2]).trans ?_)
    rw [removeEdges_mem el d e he hnd]
    exact (List.perm_append_singleton _ _).trans (List.perm_cons_erase (hmem e he)).symm
  · rw [appendEdges_not_mem el _ k hk]
    exact (shuffleEdges_perm keys _ r k).trans (by rw [removeEdges_not_mem el d k hk])

/-- The retry loop of `pick_edges` never reports an alphabet violation. -/
theorem pick_edges_loop_no_alphabet (fuel : Nat) (nl : List Char) (lc : Char)
    (d : Char → List Char) (r : Rng) (bad : List Char) :
    pick_edges_loop fuel nl lc d r ≠ .error (.invalidAlphabet bad) := by
  induction fuel generalizing r with
  | zero => simp [pick_edges_loop]
  | succ f ih =>
    simp only [pick_edges_loop]
    cases draw_edge_list nl lc d r with
    | none => simp
    | some er =>
      obtain ⟨el, r'⟩ := er
      by_cases hconn : connected_to_last el nl lc
      · simp [hconn]
      · simpa [hconn] using ih r'

/-- `pick_edges` never reports an alphabet violation. -/
theorem pick_edges_no_alphabet (fuel : Nat) (sect nl : List Char)
    (d : Char → List Char) (r : Rng) (bad : List Char) :
    pick_edges fuel sect nl d r ≠ .error (.invalidAlphabet bad) := by
  unfold pick_edges
  cases sect.getLast? with
  | none => simp
  | some lc => exact pick_edges_loop_no_alphabet fuel nl lc d r bad

/-- Appending the first character to an alphabet-error-free walk result stays
free of alphabet errors. -/
theorem exceptMap_cons_no_alphabet {bad : List Char} (c0 : Char)
    (w : Except ShuffleError (List Char))
    (hw : w ≠ .error (.invalidAlphabet bad)) :
    Except.map (fun p => c0 :: p) w ≠ .error (.invalidAlphabet bad) := by
  cases w with
  | error e => rw [exceptMap_error]; exact hw
  | ok p => rw [exceptMap_ok]; exact fun h => Except.noConfusion h

/-- The path-reconstruction loop never reports an alphabet violation. -/
theorem walkPath_no_alphabet (steps : Nat) (d : Char → List Char) (c : Char)
    (bad : List Char) :
    walkPath d c steps ≠ .error (.invalidAlphabet bad) := by
  induction steps generalizing d c with
  | zero => simp [walkPath]
  | succ n ih =>
    simp only [walkPath]
    cases hd : d c with
    | nil => simp
    | cons cur rest =>
      exact exceptMap_cons_no_alphabet cur _ (ih (updateMap d c rest) cur)

/-- Inverting a successful `get_nucleotide_list`: the returned list is the
sorted character set and the whole section is over `{A,C,G,T}`. -/
theorem get_nucleotide_list_ok_inv {sect nl : List Char}
    (h : get_nucleotide_list sect = .ok nl) :
    nl = sortChars sect.dedup ∧ ∀ c ∈ sect, c ∈ nucleotides := by
  by_cases hval : ∀ c ∈ sect, c ∈ nucleotides
  · refine ⟨?_, hval⟩
    unfold get_nucleotide_list at h
    have hfil : sect.dedup.filter (fun c => decide (c ∉ nucleotides)) = [] := by
      rw [List.filter_eq_nil_iff]
      intro a ha
      simp only [decide_eq_true_eq, Decidable.not_not]
      exact hval a (List.mem_dedup.mp ha)
    simp only [hfil, List.isEmpty_nil, if_true] at h
    exact (Except.ok.inj h).symm
  · exfalso
    push_neg at hval
    obtain ⟨c, hc, hcbad⟩ := hval
    have hmem : c ∈ sect.dedup.filter (fun c => decide (c ∉ nucleotides)) := by
      rw [List.mem_filter]
      exact ⟨List.mem_dedup.mpr hc, by simpa using hcbad⟩
    unfold get_nucleotide_list at h
    rw [if_neg (by
      rw [List.isEmpty_iff]
      intro hnil
      rw [hnil] at hmem
      exact absurd hmem (List.not_mem_nil c))] at h
    exact Except.noConfusion h

/-- A successful edge draw chooses exactly one successor, from the transition
list, for every nucleotide other than the last character. -/
theorem draw_edge_list_spec : ∀ (nl : List Char) (lc : Char) (d : Char → List Char)
    (r : Rng) (el : List (Char × Char)) (r' : Rng),
    draw_edge_list nl lc d r = some (el, r') →
    el.map Prod.fst = nl.filter (fun s => decide (s ≠ lc)) ∧
    ∀ e ∈ el, e.2 ∈ d e.1 := by
  intro nl
  induction nl with
  | nil =>
    intro lc d r el r' h
    simp only [draw_edge_list, Option.some.injEq, Prod.mk.injEq] at h
    simp [← h.1]
  | cons start rest ih =>
    intro lc d r el r' h
    simp only [draw_edge_list] at h
    by_cases hs : start = lc
    · rw [if_pos hs] at h
      obtain ⟨h1, h2⟩ := ih lc d r el r' h
      subst hs
      refine ⟨?_, h2⟩
      rw [List.filter_cons, if_neg (by simp), h1]
    · rw [if_neg hs] at h
      cases hch : r.choice (d start) with
      | none => rw [hch] at h; exact Option.noConfusion h
      | some cr =>
        obtain ⟨chosen, r2⟩ := cr
        rw [hch] at h
        cases hdr : draw_edge_list rest lc d r2 with
        | none => simp only [hdr] at h; exact Option.noConfusion h
        | some er =>
          obtain ⟨edges, r3⟩ := er
          simp only [hdr, Option.some.injEq, Prod.mk.injEq] at h
          obtain ⟨hel, _⟩ := h
          obtain ⟨h1, h2⟩ := ih lc d r2 edges r3 hdr
          constructor
          · rw [← hel, List.map_cons, List.filter_cons, if_pos (by simpa using hs), h1]
          · intro e he
            rw [← hel] at he
            rcases List.mem_cons.mp he with he1 | he2
            · subst he1
              exact choice_mem hch
            · exact h2 e he2

/-- A successful `pick_edges_loop` returns an edge list drawn by
`draw_edge_list` (the one from the final, connected retry). -/
theorem pick_edges_loop_ok_inv : ∀ (fuel : Nat) (nl : List Char) (lc : Char)
    (d : Char → List Char) (r : Rng) (el : List (Char × Char)) (r' : Rng),
    pick_edges_loop fuel nl lc d r = .ok (el, r') →
    el.map Prod.fst = nl.filter (fun s => decide (s ≠ lc)) ∧
    ∀ e ∈ el, e.2 ∈ d e.1 := by
  intro fuel
  induction fuel with
  | zero => intro nl lc d r el r' h; exact absurd h (by simp [pick_edges_loop])
  | succ f ih =>
    intro nl lc d r el r' h
    simp only [pick_edges_loop] at h
    cases hdr : draw_edge_list nl lc d r with
    | none => rw [hdr] at h; exact Except.noConfusion h
    | some er =>
      obtain ⟨el0, r0⟩ := er
      rw [hdr] at h
      by_cases hconn : connected_to_last el0 nl lc
      · simp only [if_pos hconn, Except.ok.injEq, Prod.mk.injEq] at h
        obtain ⟨hel, _⟩ := h
        subst hel
        exact draw_edge_list_spec nl lc d r el0 r0 hdr
      · simp only [if_neg hconn] at h
        exact ih nl lc d r0 el r' h

/-- A successful `pick_edges` identifies the last character and yields a
well-formed edge list. -/
theorem pick_edges_ok_inv {fuel : Nat} {sect nl : List Char}
    {d : Char → List Char} {r : Rng} {el : List (Char × Char)} {r' : Rng}
    (h : pick_edges fuel sect nl d r = .ok (el, r')) :
    ∃ lc, sect.getLast? = some lc ∧
      el.map Prod.fst = nl.filter (fun s => decide (s ≠ lc)) ∧
      ∀ e ∈ el, e.2 ∈ d e.1 := by
  unfold pick_edges at h
  cases hlast : sect.getLast? with
  | none => rw [hlast] at h; exact Except.noConfusion h
  | some lc =>
    rw [hlast] at h
    exact ⟨lc, rfl, pick_edges_loop_ok_inv fuel nl lc d r el r' h⟩

/-- On a valid uppercased alphabet, `get_nucleotide_list` succeeds. -/
theorem get_nucleotide_list_ok (sect : List Char)
    (h : ∀ c ∈ sect, c ∈ nucleotides) :
    get_nucleotide_list sect = .ok (sortChars sect.dedup) := by
  unfold get_nucleotide_list
  have hfil : sect.dedup.filter (fun c => decide (c ∉ nucleotides)) = [] := by
    rw [List.filter_eq_nil_iff]
    intro a ha
    simp only [decide_eq_true_eq, Decidable.not_not]
    exact h a (List.mem_dedup.mp ha)
  simp only [get_nucleotide_list, hfil]
  simp

theorem count_edgesOf (d : Char → List Char) : ∀ (keys : List Char), keys.Nodup →
    ∀ (a b : Char), (edgesOf d keys).count (a, b) =
      if a ∈ keys then Multiset.count b ↑(d a) else 0 := by
  intro keys
  induction keys with
  | nil => intro _ a b; simp [edgesOf_nil]
  | cons k ks ih =>
    intro hnd a b
    rw [edgesOf_cons, Multiset.count_add, ih (List.nodup_cons.mp hnd).2 a b]
    have hcoe : (↑((d k).map (fun y => (k, y))) : Multiset (Char × Char)) =
        Multiset.map (fun y => (k, y)) ↑(d k) := (Multiset.map_coe _ _).symm
    rw [hcoe]
    by_cases hak : a = k
    · subst hak
      have hnotin : a ∉ ks := (List.nodup_cons.mp hnd).1
      have hinj : Function.Injective (fun y => ((a, y) : Char × Char)) := by
        intro y z h
        simpa using h
      rw [Multiset.count_map_eq_count' _ _ hinj b]
      simp [hnotin, List.mem_cons]
    · have hzero : Multiset.count (a, b)
          (Multiset.map (fun y => (k, y)) ↑(d k)) = 0 := by
        rw [Multiset.count_eq_zero]
        intro hmem
        obtain ⟨y, _, hy⟩ := Multiset.mem_map.mp hmem
        have hka : k = a := by simpa using congrArg Prod.fst hy
        exact hak hka.symm
      rw [hzero]
      simp [hak, List.mem_cons]

/-- The edge multiset of the transition map built from a section is the
section's dinucleotide multiset (for any duplicate-free key list covering the
section's characters). -/
theorem edgesOf_gds (s : List Char) (keys : List Char) (hnd : keys.Nodup)
    (hcover : ∀ c ∈ s, c ∈ keys) :
    edgesOf (get_dinucleotide_sequence s) keys = ↑(dinucleotides s) := by
  refine Multiset.ext.mpr fun x => ?_
  obtain ⟨a, b⟩ := x
  rw [count_edgesOf _ keys hnd a b, gds_eq_filterMap, count_filterMap_pairs]
  by_cases ha : a ∈ keys
  · rw [if_pos ha]
  · rw [if_neg ha, eq_comm, Multiset.count_eq_zero]
    intro hmem
    exact ha (hcover a (List.of_mem_zip (Multiset.mem_coe.mp hmem)).1)

theorem walkPath_length : ∀ (steps : Nat) (d : Char → List Char) (c : Char)
    (out : List Char), walkPath d c steps = .ok out → out.length = steps := by
  intro steps
  induction steps with
  | zero =>
    intro d c out h
    simp only [walkPath, Except.ok.injEq] at h
    rw [← h]
    rfl
  | succ n ih =>
    intro d c out h
    simp only [walkPath] at h
    cases hd : d c with
    | nil => rw [hd] at h; exact Except.noConfusion h
    | cons cur rest =>
      rw [hd] at h
      cases hw : walkPath (updateMap d c rest) cur n with
      | error e => simp [hw, exceptMap_error] at h
      | ok p =>
        simp only [hw, exceptMap_ok, Except.ok.injEq] at h
        rw [← h]
        simp [ih _ _ _ hw]

/-- Every step of the reconstruction consumes one edge of the transition map:
the walk's dinucleotides form a sub-multiset of the map's edges. -/
theorem walkPath_le_edgesOf : ∀ (steps : Nat) (d : Char → List Char) (c : Char)
    (keys : List Char) (out : List Char), keys.Nodup → c ∈ keys →
    (∀ k y, y ∈ d k → y ∈ keys) → walkPath d c steps = .ok out →
    (↑(dinucleotides (c :: out)) : Multiset (Char × Char)) ≤ edgesOf d keys := by
  intro steps
  induction steps with
  | zero =>
    intro d c keys out _ _ _ h
    simp only [walkPath, Except.ok.injEq] at h
    rw [← h]
    exact Multiset.zero_le _
  | succ n ih =>
    intro d c keys out hnd hc hclosed h
    simp only [walkPath] at h
    cases hd : d c with
    | nil => rw [hd] at h; exact Except.noConfusion h
    | cons cur rest =>
      rw [hd] at h
      cases hw : walkPath (updateMap d c rest) cur n with
      | error e => simp [hw, exceptMap_error] at h
      | ok p =>
        simp only [hw, exceptMap_ok, Except.ok.injEq] at h
        rw [← h]
        rw [dinucleotides_cons₂, ← Multiset.cons_coe]
        rw [edgesOf_extract hnd hc hd]
        refine Multiset.cons_le_cons _ ?_
        refine ih (updateMap d c rest) cur keys p hnd ?_ ?_ hw
        · exact hclosed c cur (hd ▸ List.mem_cons_self cur rest)
        · intro k y hy
          by_cases hkc : k = c
          · subst hkc
            simp only [updateMap, if_pos rfl] at hy
            exact hclosed k y (hd ▸ List.mem_cons_of_mem cur hy)
          · simp only [updateMap, if_neg hkc] at hy
            exact hclosed k y hy

/-- Inverting a successful shuffle: the output starts at the uppercased first
character, carries the same dinucleotide multiset and length as the
uppercased input, and stays inside the valid alphabet. -/
theorem dinucleotide_shuffle_ok_spec {sect : List Char} {fuel : Nat} {rng : Rng}
    {out : List Char} (hok : dinucleotide_shuffle sect fuel rng = .ok out) :
    out.head? = (upper sect).head? ∧
    (↑(dinucleotides out) : Multiset (Char × Char)) = ↑(dinucleotides (upper sect)) ∧
    out.length = sect.length ∧ (∀ c ∈ out, c ∈ nucleotides) := by
  have hulen : (upper sect).length = sect.length := by simp [upper]
  simp only [dinucleotide_shuffle] at hok
  cases hgn : get_nucleotide_list (upper sect) with
  | error e => rw [hgn, exceptBind_error] at hok; exact Except.noConfusion hok
  | ok nl =>
    rw [hgn, exceptBind_ok] at hok
    obtain ⟨hnl, hvalid⟩ := get_nucleotide_list_ok_inv hgn
    cases hpe : pick_edges fuel (upper sect) nl
        (get_dinucleotide_sequence (upper sect)) rng with
    | error e => rw [hpe, exceptBind_error] at hok; exact Except.noConfusion hok
    | ok elr =>
      rw [hpe, exceptBind_ok] at hok
      obtain ⟨el, r'⟩ := elr
      cases hsu : upper sect with
      | nil => rw [hsu] at hok; exact Except.noConfusion hok
      | cons c0 tl =>
        rw [hsu] at hok hnl hvalid hpe hulen
        have hok' : Except.map (fun p => c0 :: p)
            (walkPath (appendEdges el ((shuffleEdges nl (removeEdges el
              (get_dinucleotide_sequence (c0 :: tl))) r').1)) c0
              ((c0 :: tl).length - 1)) = Except.ok out := hok
        obtain ⟨p, hw, hfp⟩ := exceptMap_eq_ok hok'
        -- key-list facts
        have hnd : nl.Nodup := by
          rw [hnl]
          exact (sortChars_perm _).nodup_iff.mpr (List.nodup_dedup _)
        have hcover : ∀ c ∈ c0 :: tl, c ∈ nl := by
          intro c hc
          rw [hnl]
          exact (sortChars_perm _).mem_iff.mpr (List.mem_dedup.mpr hc)
        -- edge-list facts
        obtain ⟨lc, _, hstarts, hel_mem⟩ := pick_edges_ok_inv hpe
        have hfstnd : (el.map Prod.fst).Nodup := by
          rw [hstarts]
          exact hnd.filter _
        -- the three mutation phases preserve every vertex list up to permutation
        have hperm : ∀ k, ((appendEdges el ((shuffleEdges nl (removeEdges el
            (get_dinucleotide_sequence (c0 :: tl))) r').1)) k).Perm
              (get_dinucleotide_sequence (c0 :: tl) k) :=
          pipeline_perm el nl _ r' hfstnd hel_mem
        have hedges : edgesOf (appendEdges el ((shuffleEdges nl (removeEdges el
            (get_dinucleotide_sequence (c0 :: tl))) r').1)) nl =
            edgesOf (get_dinucleotide_sequence (c0 :: tl)) nl :=
          edgesOf_congr (fun k _ => hperm k)
        have hgds : edgesOf (get_dinucleotide_sequence (c0 :: tl)) nl =
            ↑(dinucleotides (c0 :: tl)) := edgesOf_gds _ nl hnd hcover
        -- closure of successor lists inside the key list
        have hclosed0 : ∀ k y, y ∈ get_dinucleotide_sequence (c0 :: tl) k → y ∈ nl := by
          intro k y hy
          rw [gds_eq_filterMap] at hy
          obtain ⟨q, hq, hqy⟩ := List.mem_filterMap.mp hy
          by_cases hqk : q.1 = k
          · rw [if_pos hqk] at hqy
            have hy2 : y = q.2 := (Option.some.inj hqy).symm
            have : q.2 ∈ (c0 :: tl).tail := (List.of_mem_zip hq).2
            exact hcover y (hy2 ▸ List.mem_cons_of_mem c0 this)
          · rw [if_neg hqk] at hqy
            exact Option.noConfusion hqy
        have hclosed3 : ∀ k y, y ∈ (appendEdges el ((shuffleEdges nl (removeEdges el
            (get_dinucleotide_sequence (c0 :: tl))) r').1)) k → y ∈ nl :=
          fun k y hy => hclosed0 k y ((hperm k).mem_iff.mp hy)
        have hc0 : c0 ∈ nl := hcover c0 (List.mem_cons_self c0 tl)
        -- the walk consumes a sub-multiset of the edges, of full size
        have hle := walkPath_le_edgesOf ((c0 :: tl).length - 1) _ c0 nl p
          hnd hc0 hclosed3 hw
        have hlenp : p.length = tl.length := by
          have := walkPath_length ((c0 :: tl).length - 1) _ c0 p hw
          simpa using this
        have hcard : Multiset.card (edgesOf (appendEdges el ((shuffleEdges nl
            (removeEdges el (get_dinucleotide_sequence (c0 :: tl))) r').1)) nl) ≤
            Multiset.card (↑(dinucleotides (c0 :: p)) : Multiset (Char × Char)) := by
          rw [hedges, hgds, Multiset.coe_card, Multiset.coe_card,
            length_dinucleotides_cons, length_dinucleotides_cons, hlenp]
        have hmain : (↑(dinucleotides (c0 :: p)) : Multiset (Char × Char)) =
            ↑(dinucleotides (c0 :: tl)) :=
          (Multiset.eq_of_le_of_card_le hle hcard).trans (hedges.trans hgds)
        -- the tails agree as multisets
        have htails : (↑p : Multiset Char) = ↑tl := by
          have := congrArg (Multiset.map Prod.snd) hmain
          rwa [Multiset.map_coe, Multiset.map_coe, map_snd_dinucleotides,
            map_snd_dinucleotides] at this
        subst hfp
        refine ⟨rfl, hmain, ?_, ?_⟩
        · simp only [List.length_cons, hlenp]
          rw [← hulen]
          rfl
        · intro c hc
          rcases List.mem_cons.mp hc with hc1 | hc2
          · exact hvalid c (hc1 ▸ List.mem_cons_self c0 tl)
          · have : c ∈ tl := by
              have := htails ▸ Multiset.mem_coe.mpr hc2
              exact Multiset.mem_coe.mp this
            exact hvalid c (List.mem_cons_of_mem c0 this)

/-! ## Claim theorems -/

/-- **C2.** For all rational inputs with `exposure_effect ≠ 0`,
`causal_effect` returns `effect = gwas_effect / exposure_effect` together
with the non-negative square root of
`gwas_error²/exposure_effect² + gwas_effect²·exposure_error²/exposure_effect⁴`
(whenever the square-root routine is exact at that point); it raises a
division-by-zero error exactly when `exposure_effect = 0`; and the four
recorded input/output pairs hold. -/
theorem causal_effect_spec (sq : ℚ → ℚ) (ee xe ge gerr : ℚ) :
    (ee ≠ 0 →
      causal_effect sq ee xe ge gerr =
        .ok (ge / ee, sq (gerr ^ 2 / ee ^ 2 + ge ^ 2 * xe ^ 2 / ee ^ 4))) ∧
    (ee ≠ 0 →
      isSqrtOf (gerr ^ 2 / ee ^ 2 + ge ^ 2 * xe ^ 2 / ee ^ 4)
        (sq (gerr ^ 2 / ee ^ 2 + ge ^ 2 * xe ^ 2 / ee ^ 4)) →
      ∃ se, causal_effect sq ee xe ge gerr = .ok (ge / ee, se) ∧ 0 ≤ se ∧
        se * se = gerr ^ 2 / ee ^ 2 + ge ^ 2 * xe ^ 2 / ee ^ 4) ∧
    ((∃ err, causal_effect sq ee xe ge gerr = .error err) ↔ ee = 0) ∧
    (isSqrtOf 4 (sq 4) → causal_effect sq 1 (423/10) 0 2 = .ok (0, 2)) ∧
    (isSqrtOf 1 (sq 1) → causal_effect sq 2 (221/10) 0 2 = .ok (0, 1)) ∧
    (isSqrtOf 16 (sq 16) → causal_effect sq 1 (221/10) 0 4 = .ok (0, 4)) ∧
    (isSqrtOf 25 (sq 25) → causal_effect sq 1 1 3 4 = .ok (3, 5)) := by
  refine ⟨?_, ?_, ?_, ?_, ?_, ?_, ?_⟩
  · intro h
    simp [causal_effect, h]
  · intro h hsq
    exact ⟨_, by simp [causal_effect, h], hsq.1, hsq.2⟩
  · constructor
    · rintro ⟨err, herr⟩
      by_contra h
      simp [causal_effect, h] at herr
    · intro h
      exact ⟨.divisionByZero, by simp [causal_effect, h]⟩
  · intro h
    have hs : sq 4 = 2 := isSqrtOf_unique h (by norm_num) (by norm_num)
    norm_num [causal_effect, hs]
  · intro h
    have hs : sq 1 = 1 := isSqrtOf_unique h (by norm_num) (by norm_num)
    norm_num [causal_effect, hs]
  · intro h
    have hs : sq 16 = 4 := isSqrtOf_unique h (by norm_num) (by norm_num)
    norm_num [causal_effect, hs]
  · intro h
    have hs : sq 25 = 5 := isSqrtOf_unique h (by norm_num) (by norm_num)
    norm_num [causal_effect, hs]

/-- Witness for `causal_effect_spec` at the recorded concrete inputs. -/
theorem causal_effect_spec_witness :
    causal_effect (fun x => if x = 25 then 5 else if x = 4 then 2 else 0) 1 1 3 4 =
      .ok (3, 5) ∧
    causal_effect (fun x => if x = 25 then 5 else if x = 4 then 2 else 0) 1 (423/10) 0 2 =
      .ok (0, 2) ∧
    (∃ err, causal_effect (fun x => if x = 25 then 5 else if x = 4 then 2 else 0)
      0 23 (312/100) (217/100) = .error err) := by
  refine ⟨?_, ?_, ?_⟩
  · exact (causal_effect_spec _ 1 1 3 4).2.2.2.2.2.2 (by norm_num [isSqrtOf])
  · exact (causal_effect_spec _ 1 (423/10) 0 2).2.2.2.1 (by norm_num [isSqrtOf])
  · exact ((causal_effect_spec _ 0 23 (312/100) (217/100)).2.2.1).mpr rfl

/-- **C3.** The binomial estimator floors both counts at `1`, returns
`p = positives / total` and the non-negative square root of
`p * (1 - p) / total` computed from the floored counts; `(0, 9)` and
`(1, 9)` produce identical output, and `(1, 9)` gives `p = 1/10`. -/
theorem binomial_probability_and_variance_spec (sq : ℚ → ℚ) (pos neg : ℚ)
    (_hpos : 0 ≤ pos) (_hneg : 0 ≤ neg) :
    (binomial_probability_and_variance sq pos neg).1 =
      max pos 1 / (max pos 1 + max neg 1) ∧
    (isSqrtOf
        (max pos 1 / (max pos 1 + max neg 1) *
          (1 - max pos 1 / (max pos 1 + max neg 1)) / (max pos 1 + max neg 1))
        (sq (max pos 1 / (max pos 1 + max neg 1) *
          (1 - max pos 1 / (max pos 1 + max neg 1)) / (max pos 1 + max neg 1))) →
      0 ≤ (binomial_probability_and_variance sq pos neg).2 ∧
      (binomial_probability_and_variance sq pos neg).2 *
        (binomial_probability_and_variance sq pos neg).2 =
        max pos 1 / (max pos 1 + max neg 1) *
          (1 - max pos 1 / (max pos 1 + max neg 1)) / (max pos 1 + max neg 1)) ∧
    binomial_probability_and_variance sq 0 9 = binomial_probability_and_variance sq 1 9 ∧
    (binomial_probability_and_variance sq 1 9).1 = 1/10 := by
  refine ⟨rfl, fun hsq => ⟨hsq.1, hsq.2⟩, ?_, ?_⟩
  · have h01 : max (0 : ℚ) 1 = max (1 : ℚ) 1 := by norm_num
    simp only [binomial_probability_and_variance, h01]
  · simp only [binomial_probability_and_variance]
    norm_num

/-- Witness for `binomial_probability_and_variance_spec`: counts `(2, 2)`
(square root exact there) and the recorded pairs `(0, 9)`, `(1, 9)`. -/
theorem binomial_probability_and_variance_spec_witness :
    binomial_probability_and_variance (fun _ => (1/4 : ℚ)) 0 9 =
      binomial_probability_and_variance (fun _ => (1/4 : ℚ)) 1 9 ∧
    (binomial_probability_and_variance (fun _ => (1/4 : ℚ)) 1 9).1 = 1/10 ∧
    0 ≤ (binomial_probability_and_variance (fun _ => (1/4 : ℚ)) 2 2).2 ∧
    (binomial_probability_and_variance (fun _ => (1/4 : ℚ)) 2 2).2 *
      (binomial_probability_and_variance (fun _ => (1/4 : ℚ)) 2 2).2 =
      max (2 : ℚ) 1 / (max (2 : ℚ) 1 + max (2 : ℚ) 1) *
        (1 - max (2 : ℚ) 1 / (max (2 : ℚ) 1 + max (2 : ℚ) 1)) /
        (max (2 : ℚ) 1 + max (2 : ℚ) 1) := by
  have h09 := binomial_probability_and_variance_spec (fun _ => (1/4 : ℚ)) 0 9
    (by norm_num) (by norm_num)
  have h22 := binomial_probability_and_variance_spec (fun _ => (1/4 : ℚ)) 2 2
    (by norm_num) (by norm_num)
  have hsq : isSqrtOf
      (max (2 : ℚ) 1 / (max (2 : ℚ) 1 + max (2 : ℚ) 1) *
        (1 - max (2 : ℚ) 1 / (max (2 : ℚ) 1 + max (2 : ℚ) 1)) / (max (2 : ℚ) 1 + max (2 : ℚ) 1))
      ((fun _ => (1/4 : ℚ))
        (max (2 : ℚ) 1 / (max (2 : ℚ) 1 + max (2 : ℚ) 1) *
          (1 - max (2 : ℚ) 1 / (max (2 : ℚ) 1 + max (2 : ℚ) 1)) /
          (max (2 : ℚ) 1 + max (2 : ℚ) 1))) := by
    constructor <;> norm_num
  exact ⟨h09.2.2.1, h09.2.2.2, (h22.2.1 hsq).1, (h22.2.1 hsq).2⟩

/-- **C9.** Pooling a single estimate is the identity:
`_pool_summary_statistics` returns the sole `(value, standard error)` pair
unchanged, and the result does not depend on the curve-fit routine — no fit
is performed. -/
theorem pool_summary_statistics_singleton (f g : List ℚ → List ℚ → ℚ × ℚ)
    (p s : ℚ) (rest : List ℚ) :
    pool_summary_statistics f [p] (s :: rest) = some (p, s) ∧
    pool_summary_statistics f [p] (s :: rest) =
      pool_summary_statistics g [p] (s :: rest) := ⟨rfl, rfl⟩

/-- Two nonempty strings with the same first character and the same
dinucleotide multiset end in the same character: the in/out-degree imbalance
of each symbol is determined by the pair multiset and the endpoints. -/
theorem getLast_eq_of_dinucleotides (x y : List Char) (hx : x ≠ []) (hy : y ≠ [])
    (hhead : x.head? = y.head?)
    (hpairs : (↑(dinucleotides x) : Multiset (Char × Char)) = ↑(dinucleotides y)) :
    x.getLast? = y.getLast? := by
  obtain ⟨a, xs, rfl⟩ := List.exists_cons_of_ne_nil hx
  obtain ⟨b, ys, rfl⟩ := List.exists_cons_of_ne_nil hy
  have hab : a = b := by simpa using hhead
  subst hab
  have htails : (↑xs : Multiset Char) = ↑ys := by
    have := congrArg (Multiset.map Prod.snd) hpairs
    rwa [Multiset.map_coe, Multiset.map_coe, map_snd_dinucleotides,
      map_snd_dinucleotides] at this
  have hdrops : (↑(a :: xs).dropLast : Multiset Char) = ↑(a :: ys).dropLast := by
    have := congrArg (Multiset.map Prod.fst) hpairs
    rwa [Multiset.map_coe, Multiset.map_coe, map_fst_dinucleotides,
      map_fst_dinucleotides] at this
  have hxne : (a :: xs) ≠ [] := List.cons_ne_nil a xs
  have hyne : (a :: ys) ≠ [] := List.cons_ne_nil a ys
  have hsplit : ∀ (l : List Char) (h : l ≠ []) (w : Char),
      Multiset.count w ↑l = Multiset.count w ↑l.dropLast +
        (if w = l.getLast h then 1 else 0) := by
    intro l h w
    conv_lhs => rw [← List.dropLast_append_getLast h]
    rw [← Multiset.coe_add, Multiset.count_add, ← Multiset.cons_coe,
      Multiset.count_cons]
    simp
  have key : ∀ w : Char, (if w = (a :: xs).getLast hxne then 1 else 0 : ℕ) =
      (if w = (a :: ys).getLast hyne then 1 else 0) := by
    intro w
    have e1 : Multiset.count w ↑(a :: xs) =
        Multiset.count w ↑xs + (if w = a then 1 else 0) := by
      rw [← Multiset.cons_coe, Multiset.count_cons]
    have e2 := hsplit (a :: xs) hxne w
    have e3 : Multiset.count w ↑(a :: ys) =
        Multiset.count w ↑ys + (if w = a then 1 else 0) := by
      rw [← Multiset.cons_coe, Multiset.count_cons]
    have e4 := hsplit (a :: ys) hyne w
    rw [htails] at e1
    rw [hdrops] at e2
    omega
  have hlast : (a :: xs).getLast hxne = (a :: ys).getLast hyne := by
    have := key ((a :: xs).getLast hxne)
    by_cases hcontra : (a :: xs).getLast hxne = (a :: ys).getLast hyne
    · exact hcontra
    · rw [if_pos rfl, if_neg hcontra] at this
      exact absurd this one_ne_zero
  rw [List.getLast?_eq_getLast_of_ne_nil hxne, List.getLast?_eq_getLast_of_ne_nil hyne,
    hlast]

/-- **C1.** For every input whose characters (case-insensitively) all lie in
`{A,C,G,T}` and whose length is at least 2, and for every random-source state
(and retry fuel), the string returned by a successful `dinucleotide_shuffle`
has the same multiset of adjacent character pairs as the uppercased input;
consequently its length equals the input length and its alphabet is a subset
of `{A,C,G,T}`. -/
theorem dinucleotide_shuffle_preserves_dinucleotides (sect : List Char)
    (fuel : Nat) (rng : Rng) (out : List Char)
    (_hvalid : ∀ c ∈ upper sect, c ∈ nucleotides) (_hlen : 2 ≤ sect.length)
    (hok : dinucleotide_shuffle sect fuel rng = .ok out) :
    (↑(dinucleotides out) : Multiset (Char × Char)) = ↑(dinucleotides (upper sect)) ∧
    out.length = sect.length ∧ (∀ c ∈ out, c ∈ nucleotides) := by
  obtain ⟨_, hm, hl, ha⟩ := dinucleotide_shuffle_ok_spec hok
  exact ⟨hm, hl, ha⟩

/-- Witness for `dinucleotide_shuffle_preserves_dinucleotides` on a concrete
run of the shuffle. -/
theorem dinucleotide_shuffle_preserves_dinucleotides_witness :
    (↑(dinucleotides ['A', 'C', 'G', 'T', 'A', 'C', 'C', 'G', 'A']) :
        Multiset (Char × Char)) =
      ↑(dinucleotides (upper ['a', 'c', 'g', 't', 'a', 'c', 'c', 'g', 'a'])) ∧
    (['A', 'C', 'G', 'T', 'A', 'C', 'C', 'G', 'A'] : List Char).length =
      (['a', 'c', 'g', 't', 'a', 'c', 'c', 'g', 'a'] : List Char).length ∧
    (∀ c ∈ (['A', 'C', 'G', 'T', 'A', 'C', 'C', 'G', 'A'] : List Char),
      c ∈ nucleotides) :=
  dinucleotide_shuffle_preserves_dinucleotides
    ['a', 'c', 'g', 't', 'a', 'c', 'c', 'g', 'a'] 5 [3, 1, 4, 1, 5, 9, 2, 6]
    ['A', 'C', 'G', 'T', 'A', 'C', 'C', 'G', 'A']
    (by decide) (by decide) (by decide)

/-- **C10.** For every valid input of length at least 1, the output of a
successful `dinucleotide_shuffle` begins with the uppercased first character
of the input, and for length at least 2 it also ends with the uppercased
last character — the shuffle permutes only the interior walk. -/
theorem dinucleotide_shuffle_fixes_endpoints (sect : List Char) (fuel : Nat)
    (rng : Rng) (out : List Char) (hlen : 1 ≤ sect.length)
    (hok : dinucleotide_shuffle sect fuel rng = .ok out) :
    out.head? = (upper sect).head? ∧
    (2 ≤ sect.length → out.getLast? = (upper sect).getLast?) := by
  obtain ⟨hh, hm, hl, _⟩ := dinucleotide_shuffle_ok_spec hok
  refine ⟨hh, fun h2 => ?_⟩
  have hslen : (upper sect).length = sect.length := by rw [upper, List.length_map]
  have hune : upper sect ≠ [] := by
    intro hcontra
    rw [hcontra] at hslen
    simp only [List.length_nil] at hslen
    omega
  have hone : out ≠ [] := by
    intro hcontra
    rw [hcontra] at hl
    simp only [List.length_nil] at hl
    omega
  exact getLast_eq_of_dinucleotides out (upper sect) hone hune hh hm

/-- Witness for `dinucleotide_shuffle_fixes_endpoints` on a concrete run. -/
theorem dinucleotide_shuffle_fixes_endpoints_witness :
    (['A', 'C', 'G', 'T', 'A', 'C', 'C', 'G', 'A'] : List Char).head? =
      (upper ['a', 'c', 'g', 't', 'a', 'c', 'c', 'g', 'a']).head? ∧
    (2 ≤ (['a', 'c', 'g', 't', 'a', 'c', 'c', 'g', 'a'] : List Char).length →
      (['A', 'C', 'G', 'T', 'A', 'C', 'C', 'G', 'A'] : List Char).getLast? =
        (upper ['a', 'c', 'g', 't', 'a', 'c', 'c', 'g', 'a']).getLast?) :=
  dinucleotide_shuffle_fixes_endpoints
    ['a', 'c', 'g', 't', 'a', 'c', 'c', 'g', 'a'] 5 [3, 1, 4, 1, 5, 9, 2, 6]
    ['A', 'C', 'G', 'T', 'A', 'C', 'C', 'G', 'A'] (by decide) (by decide)

/-- **C6.** If the uppercased input contains any character outside
`{A,C,G,T}`, `dinucleotide_shuffle` fails with the invalid-alphabet error
listing exactly the offending symbols; if it contains only those characters,
no such error is ever raised. -/
theorem dinucleotide_shuffle_alphabet_validation (sect : List Char) (fuel : Nat)
    (rng : Rng) :
    ((∃ c ∈ upper sect, c ∉ nucleotides) →
      ∃ bad, dinucleotide_shuffle sect fuel rng = .error (.invalidAlphabet bad) ∧
        bad ≠ [] ∧ ∀ c, c ∈ bad ↔ (c ∈ upper sect ∧ c ∉ nucleotides)) ∧
    ((∀ c ∈ upper sect, c ∈ nucleotides) →
      ∀ bad, dinucleotide_shuffle sect fuel rng ≠ .error (.invalidAlphabet bad)) := by
  constructor
  · rintro ⟨c, hc, hcbad⟩
    refine ⟨(upper sect).dedup.filter (fun c => decide (c ∉ nucleotides)), ?_, ?_, ?_⟩
    · have hne : ¬((upper sect).dedup.filter (fun c => decide (c ∉ nucleotides))).isEmpty := by
        rw [List.isEmpty_iff]
        intro hnil
        have : c ∈ (upper sect).dedup.filter (fun c => decide (c ∉ nucleotides)) := by
          rw [List.mem_filter]
          exact ⟨List.mem_dedup.mpr hc, by simpa using hcbad⟩
        rw [hnil] at this
        exact absurd this (List.not_mem_nil c)
      simp only [dinucleotide_shuffle, get_nucleotide_list]
      rw [if_neg hne]
      rfl
    · intro hnil
      have : c ∈ (upper sect).dedup.filter (fun c => decide (c ∉ nucleotides)) := by
        rw [List.mem_filter]
        exact ⟨List.mem_dedup.mpr hc, by simpa using hcbad⟩
      rw [hnil] at this
      exact absurd this (List.not_mem_nil c)
    · intro a
      rw [List.mem_filter, List.mem_dedup]
      simp
  · intro hvalid bad
    have hok := get_nucleotide_list_ok (upper sect) hvalid
    simp only [dinucleotide_shuffle, hok, exceptBind_ok]
    cases hpe : pick_edges fuel (upper sect) (sortChars (upper sect).dedup)
        (get_dinucleotide_sequence (upper sect)) rng with
    | error e =>
      rw [exceptBind_error]
      intro hcontra
      injection hcontra with he
      exact pick_edges_no_alphabet fuel (upper sect) (sortChars (upper sect).dedup)
        (get_dinucleotide_sequence (upper sect)) rng bad (he ▸ hpe)
    | ok elr =>
      obtain ⟨el, r'⟩ := elr
      rw [exceptBind_ok]
      cases hu : upper sect with
      | nil => simp
      | cons c0 tl =>
        exact exceptMap_cons_no_alphabet c0 _ (walkPath_no_alphabet _ _ _ _)

/-- Witness for `dinucleotide_shuffle_alphabet_validation`: a lowercase input
with a foreign symbol fails listing it; an `{A,C,G,T}` input never raises the
alphabet error. -/
theorem dinucleotide_shuffle_alphabet_validation_witness :
    (∃ bad, dinucleotide_shuffle ['a', 'x'] 3 [] = .error (.invalidAlphabet bad) ∧
      bad ≠ [] ∧ ∀ c, c ∈ bad ↔ (c ∈ upper ['a', 'x'] ∧ c ∉ nucleotides)) ∧
    (∀ bad, dinucleotide_shuffle ['A', 'C'] 3 [] ≠ .error (.invalidAlphabet bad)) :=
  ⟨(dinucleotide_shuffle_alphabet_validation ['a', 'x'] 3 []).1 (by decide),
   (dinucleotide_shuffle_alphabet_validation ['A', 'C'] 3 []).2 (by decide)⟩

/-- **C7 counterexample.** On the empty sequence the shuffle does not return
the (uppercased) input unchanged: `section[-1]` in `pick_edges` raises an
`IndexError`. -/
theorem dinucleotide_shuffle_empty_counterexample :
    dinucleotide_shuffle [] 1 [] = .error .indexError ∧
    dinucleotide_shuffle [] 1 [] ≠ .ok [] := by decide

/-- **C7 (amended).** A valid length-1 sequence is returned uppercased and
unchanged for every random-source state (given at least one round of retry
fuel for the `while True` loop, which draws nothing and succeeds at once),
while the length-0 sequence always fails with an index error (`section[-1]`
on an empty string). -/
theorem dinucleotide_shuffle_short_input (c : Char) (fuel : Nat) (rng : Rng)
    (hc : Char.toUpper c ∈ nucleotides) (hfuel : 1 ≤ fuel) :
    dinucleotide_shuffle [c] fuel rng = .ok [Char.toUpper c] ∧
    dinucleotide_shuffle [] fuel rng = .error .indexError := by
  obtain ⟨f, rfl⟩ : ∃ f, fuel = f + 1 := by
    cases fuel with
    | zero => omega
    | succ f => exact ⟨f, rfl⟩
  constructor
  · have hup : upper [c] = [Char.toUpper c] := rfl
    have hok : get_nucleotide_list [Char.toUpper c] = .ok [Char.toUpper c] := by
      have := get_nucleotide_list_ok [Char.toUpper c] (by simpa using hc)
      simpa [sortChars, insertChar] using this
    have hpe : pick_edges (f + 1) [Char.toUpper c] [Char.toUpper c]
        (get_dinucleotide_sequence [Char.toUpper c]) rng = .ok ([], rng) := by
      simp [pick_edges, List.getLast?, pick_edges_loop, draw_edge_list,
        connected_to_last]
    simp only [dinucleotide_shuffle, hup, hok, exceptBind_ok, hpe]
    simp [removeEdges, shuffleEdges, appendEdges, walkPath, updateMap,
      Rng.shuffleList, shuffleGo, get_dinucleotide_sequence, exceptMap_ok]
  · rfl

/-- Witness for `dinucleotide_shuffle_short_input` at `'a'`. -/
theorem dinucleotide_shuffle_short_input_witness :
    dinucleotide_shuffle ['a'] 1 [] = .ok ['A'] ∧
    dinucleotide_shuffle [] 1 [] = .error .indexError :=
  dinucleotide_shuffle_short_input 'a' 1 [] (by decide) (by decide)

theorem foldr_min_le_base (b : ℚ) (l : List ℚ) : l.foldr min b ≤ b := by
  induction l with
  | nil => exact le_refl b
  | cons x xs ih => exact le_trans (min_le_right x _) ih

theorem foldr_min_le_mem {x : ℚ} (b : ℚ) {l : List ℚ} (hx : x ∈ l) :
    l.foldr min b ≤ x := by
  induction l with
  | nil => cases hx
  | cons y ys ih =>
    rcases List.mem_cons.mp hx with rfl | h2
    · exact min_le_left x _
    · exact le_trans (min_le_right y _) (ih h2)

theorem le_foldr_min {c b : ℚ} {l : List ℚ} (hb : c ≤ b) (hl : ∀ x ∈ l, c ≤ x) :
    c ≤ l.foldr min b := by
  induction l with
  | nil => exact hb
  | cons y ys ih =>
    refine le_min (hl y (List.mem_cons_self y ys)) ?_
    exact ih (fun x hx => hl x (List.mem_cons_of_mem y hx))

/-- Benjamini–Hochberg monotonicity: a smaller p-value never receives a larger
adjusted value (for levels drawn from the batch). -/
theorem bhValue_mono {ps : List ℚ} {p q : ℚ} (hq : q ∈ ps) (hpq : p ≤ q) :
    bhValue ps p ≤ bhValue ps q := by
  unfold bhValue
  refine min_le_min (le_refl 1) ?_
  refine le_foldr_min ?_ ?_
  · refine foldr_min_le_mem _ ?_
    exact List.mem_map.mpr ⟨q, List.mem_filter.mpr ⟨hq, by simpa using hpq⟩, rfl⟩
  · intro x hx
    obtain ⟨v, hv, rfl⟩ := List.mem_map.mp hx
    obtain ⟨hvps, hqv⟩ := List.mem_filter.mp hv
    refine foldr_min_le_mem _ ?_
    refine List.mem_map.mpr ⟨v, List.mem_filter.mpr ⟨hvps, ?_⟩, rfl⟩
    simp only [decide_eq_true_eq] at hqv ⊢
    exact le_trans hpq hqv

theorem foldl_set_shift (x : Option ℚ) : ∀ (P : List ℕ) (Q : List ℚ)
    (o : List (Option ℚ)),
    (((P.map Nat.succ).zip Q).foldl (fun o pq => o.set pq.1 (some pq.2)) (x :: o)) =
      x :: ((P.zip Q).foldl (fun o pq => o.set pq.1 (some pq.2)) o) := by
  intro P
  induction P with
  | nil => intro Q o; rfl
  | cons i ps ih =>
    intro Q o
    cases Q with
    | nil => rfl
    | cons q qs =>
      simp only [List.map_cons, List.zip_cons_cons, List.foldl_cons, List.set]
      exact ih qs _

/-- The scatter loop of `get_q_values` (positions of present entries, zipped
with the adjusted values, written into an all-missing array) equals the
order-preserving refill `fillSomes`. -/
theorem scatter_eq_fillSomes : ∀ (l : List (Option ℚ)) (qs : List ℚ),
    ((((List.range l.length).filter (fun i => (l.getD i none).isSome)).zip qs).foldl
      (fun o pq => o.set pq.1 (some pq.2)) (List.replicate l.length none)) =
      fillSomes l qs := by
  intro l
  induction l with
  | nil => intro qs; rfl
  | cons a t ih =>
    intro qs
    have hfm : (List.range (a :: t).length).filter
        (fun i => ((a :: t).getD i none).isSome) =
        (if a.isSome then [0] else []) ++
          ((List.range t.length).filter (fun i => (t.getD i none).isSome)).map
            Nat.succ := by
      rw [List.length_cons, List.range_succ_eq_map, List.filter_cons,
        List.filter_map]
      have hcomp : ((fun i => ((a :: t).getD i none).isSome) ∘ Nat.succ) =
          (fun i => (t.getD i none).isSome) := rfl
      rw [hcomp]
      cases a <;> simp
    cases a with
    | none =>
      simp only [Option.isSome_none, Bool.false_eq_true, if_false,
        List.nil_append] at hfm
      rw [hfm, List.length_cons, List.replicate_succ, foldl_set_shift, ih qs]
      rfl
    | some v =>
      simp only [Option.isSome_some, if_true, List.singleton_append] at hfm
      rw [hfm, List.length_cons, List.replicate_succ]
      cases qs with
      | nil =>
        have h0 : fillSomes t [] = List.replicate t.length none := by
          rw [← ih []]
          simp [List.zip_nil_right]
        simp [List.zip_nil_right, fillSomes, h0]
      | cons q qs' =>
        rw [List.zip_cons_cons, List.foldl_cons]
        show ((((List.range t.length).filter
            (fun i => (t.getD i none).isSome)).map Nat.succ).zip qs').foldl
            (fun o pq => o.set pq.1 (some pq.2))
            (some q :: List.replicate t.length none) =
          fillSomes (some v :: t) (q :: qs')
        rw [foldl_set_shift, ih qs']
        rfl

/-- `get_q_values` is the order-preserving refill of the input by the
Benjamini–Hochberg adjustment of its present entries. -/
theorem get_q_values_eq_fillSomes (l : List (Option ℚ)) :
    get_q_values l = fillSomes l (bhAdjust (l.filterMap id)) :=
  scatter_eq_fillSomes l _

theorem fillSomes_map (f : ℚ → ℚ) : ∀ (l : List (Option ℚ)),
    fillSomes l ((l.filterMap id).map f) = l.map (Option.map f) := by
  intro l
  induction l with
  | nil => rfl
  | cons a t ih =>
    cases a with
    | none =>
      show fillSomes (none :: t) ((t.filterMap id).map f) = _
      rw [fillSomes, ih]
      rfl
    | some v =>
      show fillSomes (some v :: t) (f v :: (t.filterMap id).map f) = _
      rw [fillSomes, ih]
      rfl

/-- Elementwise characterisation of `get_q_values`: every present p-value is
replaced by its Benjamini–Hochberg adjusted value computed over exactly the
present entries; missing entries stay missing; order and length are kept. -/
theorem get_q_values_char (l : List (Option ℚ)) :
    get_q_values l = l.map (Option.map (bhValue (l.filterMap id))) := by
  rw [get_q_values_eq_fillSomes]
  exact fillSomes_map (bhValue (l.filterMap id)) l

/-- **C4.** `get_q_values` returns a list of the same length in the same
order; every missing p-value keeps a missing q-value; every present p-value
holds the Benjamini–Hochberg adjusted value computed over exactly the present
entries (missing entries are excluded, not treated as zero); and q-values are
monotonically non-decreasing in the p-value order. -/
theorem get_q_values_spec (l : List (Option ℚ)) :
    (get_q_values l).length = l.length ∧
    (∀ i : ℕ, l[i]? = some none → (get_q_values l)[i]? = some none) ∧
    (∀ (i : ℕ) (p : ℚ), l[i]? = some (some p) →
      (get_q_values l)[i]? = some (some (bhValue (l.filterMap id) p))) ∧
    (∀ (i j : ℕ) (pi pj qi qj : ℚ), l[i]? = some (some pi) →
      l[j]? = some (some pj) → pi ≤ pj →
      (get_q_values l)[i]? = some (some qi) →
      (get_q_values l)[j]? = some (some qj) → qi ≤ qj) := by
  have hchar := get_q_values_char l
  refine ⟨?_, ?_, ?_, ?_⟩
  · rw [hchar, List.length_map]
  · intro i hi
    rw [hchar, List.getElem?_map, hi]
    rfl
  · intro i p hp
    rw [hchar, List.getElem?_map, hp]
    rfl
  · intro i j pi pj qi qj hpi hpj hle hqi hqj
    rw [hchar, List.getElem?_map, hpi] at hqi
    rw [hchar, List.getElem?_map, hpj] at hqj
    simp only [Option.map_some', Option.some.injEq] at hqi hqj
    have hpjmem : pj ∈ l.filterMap id := by
      obtain ⟨hj, hjeq⟩ := List.getElem?_eq_some_iff.mp hpj
      have hm : some pj ∈ l := hjeq ▸ List.getElem_mem hj
      exact List.mem_filterMap.mpr ⟨some pj, hm, rfl⟩
    have hmono := bhValue_mono hpjmem hle
    rw [hqi, hqj] at hmono
    exact hmono

/-- A list that is a permutation of an all-equal list is that list. -/
theorem eq_of_perm_of_const {α : Type} {l l' : List α} {a : α}
    (hp : l'.Perm l) (hall : ∀ b ∈ l, b = a) : l' = l := by
  have h1 : l = List.replicate l.length a := by
    rw [List.eq_replicate_iff]
    exact ⟨rfl, hall⟩
  have h2 : l' = List.replicate l.length a := by
    rw [List.eq_replicate_iff]
    exact ⟨by rw [hp.length_eq], fun b hb => hall b (hp.mem_iff.mp hb)⟩
  rw [h1, h2]

/-- Writing a row list's own rsid column back into it is the identity. -/
theorem zipWith_set_rsid : ∀ (rows : List GWASRow),
    List.zipWith (fun g r => { g with rsid := r }) rows
      (rows.map (fun g => g.rsid)) = rows := by
  intro rows
  induction rows with
  | nil => rfl
  | cons g gs ih => simp only [List.map_cons, List.zipWith_cons_cons, ih]

/-- The output of `processBV` does not depend on the ambient NumPy
permutation: the permuted column holds a single repeated rsid (all selected
rows match the BV's rsid), so any permutation writes back the same values. -/
theorem processBV_amb (sq sf : ℚ → ℚ) (dfGWAS : List GWASRow)
    (codes : List String) (permute : Bool)
    (amb1 amb2 : List (Option String) → List (Option String))
    (h1 : ∀ l, (amb1 l).Perm l) (h2 : ∀ l, (amb2 l).Perm l)
    (minMAF minHWE miniscore : ℚ) (bv : BVRow) :
    processBV sq sf dfGWAS codes permute amb1 minMAF minHWE miniscore bv =
      processBV sq sf dfGWAS codes permute amb2 minMAF minHWE miniscore bv := by
  cases permute with
  | false => simp [processBV]
  | true =>
    have hL : ∀ (L : List GWASRow), (∀ g ∈ L, g.rsid = some bv.rsid) →
        ∀ (amb : List (Option String) → List (Option String)),
        (∀ l, (amb l).Perm l) →
        List.zipWith (fun g r => { g with rsid := r }) L
          (amb (L.map (fun g => g.rsid))) = L := by
      intro L hall amb hamb
      have hcol : ∀ r ∈ L.map (fun g => g.rsid), r = some bv.rsid := by
        intro r hr
        obtain ⟨g, hg, rfl⟩ := List.mem_map.mp hr
        exact hall g hg
      rw [eq_of_perm_of_const (hamb _) hcol]
      exact zipWith_set_rsid L
    have hall2 : ∀ g ∈ (((dfGWAS.filter
        (fun g => decide (g.rsid = some bv.rsid))).filter rowComplete).filter
        (fun g => optGE g.MAF minMAF && optGE g.HWE minHWE &&
          optGE g.iscore miniscore)), g.rsid = some bv.rsid := by
      intro g hg
      have hm1 := (List.mem_filter.mp hg).1
      have hm2 := (List.mem_filter.mp hm1).1
      have hm3 := (List.mem_filter.mp hm2).2
      simpa using hm3
    simp only [processBV]
    rw [hL _ hall2 amb1 h1, hL _ hall2 amb2 h2]

/-- **C5.** Both core operations are deterministic functions of their
explicit arguments, with all randomness drawn from the explicitly passed
random source: two shuffles with the same sequence and identically seeded
sources (equal draw streams) agree, and `naive_mr_analysis` returns
identical outputs on identical inputs for every value of the permute flag —
the ambient NumPy permutation consulted when `permute` is true provably
cannot influence the result, because it reorders an all-equal rsid column. -/
theorem determinism_spec (sect : List Char) (fuel : Nat) (r1 r2 : Rng)
    (hr : r1 = r2) (sq sf : ℚ → ℚ) (dfBVs : List BVRow)
    (dfGWAS : List GWASRow) (codes : List String) (permute : Bool)
    (amb1 amb2 : List (Option String) → List (Option String))
    (h1 : ∀ l, (amb1 l).Perm l) (h2 : ∀ l, (amb2 l).Perm l)
    (minMAF minHWE miniscore : ℚ) :
    dinucleotide_shuffle sect fuel r1 = dinucleotide_shuffle sect fuel r2 ∧
    naive_mr_analysis sq sf dfBVs dfGWAS codes permute amb1
        minMAF minHWE miniscore =
      naive_mr_analysis sq sf dfBVs dfGWAS codes permute amb2
        minMAF minHWE miniscore := by
  constructor
  · rw [hr]
  · have hproc := processBV_amb sq sf dfGWAS codes permute amb1 amb2 h1 h2
      minMAF minHWE miniscore
    simp only [naive_mr_analysis]
    simp only [hproc]

/-- Witness for `determinism_spec`: identity and reversal are both
permutations, and the analysis agrees under them with `permute = true`. -/
theorem determinism_spec_witness :
    dinucleotide_shuffle ['A', 'C'] 2 [1, 2] = dinucleotide_shuffle ['A', 'C'] 2 [1, 2] ∧
    naive_mr_analysis (fun _ => 1) (fun _ => 1)
        [⟨"rs1", 1, 1, "A", "C"⟩]
        [⟨some "rs1", some "C", some 3, some 4, some 1, some 1, some 1, some "t1"⟩]
        ["t1"] true id (1/1000) (1/10^50) (9/10) =
      naive_mr_analysis (fun _ => 1) (fun _ => 1)
        [⟨"rs1", 1, 1, "A", "C"⟩]
        [⟨some "rs1", some "C", some 3, some 4, some 1, some 1, some 1, some "t1"⟩]
        ["t1"] true List.reverse (1/1000) (1/10^50) (9/10) :=
  determinism_spec ['A', 'C'] 2 [1, 2] [1, 2] rfl (fun _ => 1) (fun _ => 1)
    [⟨"rs1", 1, 1, "A", "C"⟩]
    [⟨some "rs1", some "C", some 3, some 4, some 1, some 1, some 1, some "t1"⟩]
    ["t1"] true id List.reverse (fun l => List.Perm.refl l)
    (fun l => l.reverse_perm) (1/1000) (1/10^50) (9/10)

/-- **C8 (evaluation at the failing input).** The dataframe returned by
`naive_mr_analysis` carries exactly the input columns followed by
`MR total causal effect`, `MR se`, `z score`, `p value` and `q values` — it
records no orientation / `effect_allele` column (the repository's own test
`test_naive_mr` expects one between `p value` and `q values`), and on a
concrete scored row every emitted cell is accounted for with no orientation
value among them. -/
theorem naive_mr_no_orientation_column :
    naive_mr_final_cols =
      ["rsid", "es", "es_sterr", "ref", "alt", "rsid", "allele", "beta", "NSE",
        "MAF", "HWE", "iscore", "trait", "MR total causal effect", "MR se",
        "z score", "p value", "q values"] ∧
    "effect_allele" ∉ naive_mr_final_cols ∧
    "orientation" ∉ naive_mr_final_cols ∧
    naive_mr_analysis (fun _ => 1) (fun _ => 1)
        [⟨"rs1", 1, 1, "A", "C"⟩]
        [⟨some "rs1", some "C", some 3, some 4, some 1, some 1, some 1, some "t1"⟩]
        ["t1"] false id (1/1000) (1/10^50) (9/10) =
      .ok (naive_mr_final_cols,
        [[.str "rs1", .num 1, .num 1, .str "A", .str "C",
          .str "rs1", .str "C", .num 3, .num 4, .num 1, .num 1, .num 1,
          .str "t1", .num 3, .num 1, .num 3, .num 2, .num 1]]) := by
  refine ⟨rfl, by decide, by decide, ?_⟩
  have hq : get_q_values [some 2] = [some 1] := by
    norm_num [get_q_values, bhAdjust, bhValue, List.range_succ, min_def,
      List.filterMap_cons, List.filterMap_nil, id_eq]
  norm_num [naive_mr_analysis, processBV, scoreRow, causal_effect,
    bvCells, gwasCells, optStrCell, optNumCell, rowComplete, optGE,
    List.foldlM_cons, List.foldlM_nil, List.filterMap_cons,
    List.filterMap_nil, exceptBind_ok, exceptMap_ok, Except.map,
    Except.pure, hq]

/-- Witness for `get_q_values_spec` on the batch `[1/2, missing, 1/4]`. -/
theorem get_q_values_spec_witness :
    (get_q_values [some (1/2), none, some (1/4)]).length =
      ([some (1/2), none, some (1/4)] : List (Option ℚ)).length ∧
    (get_q_values [some (1/2), none, some (1/4)])[1]? = some none ∧
    (get_q_values [some (1/2), none, some (1/4)])[0]? =
      some (some (bhValue (List.filterMap id [some (1/2), none, some (1/4)]) (1/2))) ∧
    bhValue (List.filterMap id [some (1/2), none, some (1/4)]) (1/4) ≤
      bhValue (List.filterMap id [some (1/2), none, some (1/4)]) (1/2) := by
  have h := get_q_values_spec [some (1/2), none, some (1/4)]
  refine ⟨h.1, h.2.1 1 rfl, h.2.2.1 0 (1/2) rfl, ?_⟩
  exact h.2.2.2 2 0 (1/4) (1/2) _ _ rfl rfl (by norm_num)
    (h.2.2.1 2 (1/4) rfl) (h.2.2.1 0 (1/2) rfl)

end Tfomics
